import Mathlib

/-!
Verification of the gap buffer in `src/gap_buffer.rs` of `algorithms-in-rust`.

The buffer is embedded shallowly: raw storage is a total function
`Nat → Option T` where `some v` means the slot holds the bit pattern of a
live value `v` last written there and `none` means the slot was never
written (uninitialized memory).  The `Vec` capacity is tracked as a `Nat`
field, and the `gap : Range<usize>` becomes the two fields `gapStart` and
`gapEnd`.  `ptr::copy` (memmove, overlap tolerant) and
`ptr::copy_nonoverlapping` are both modelled by `ptrCopy`, which reads every
source slot from the pre-state.  A function that can panic
(`set_potision`) returns `Option`; `remove`, which both returns a value and
mutates, returns the pair of its result and the new state.
-/

set_option autoImplicit false

universe u

variable {T : Type u}

/-- Overlap-tolerant block copy: copies `count` slots starting at `srcOff`
of `src` onto `dst` starting at `dstOff`; every source slot is read from the
pre-state, which is exactly the semantics of `ptr::copy` (memmove) and of
`ptr::copy_nonoverlapping`. -/
def ptrCopy (dst src : Nat → Option T) (srcOff dstOff count : Nat) :
    Nat → Option T :=
  fun j => if dstOff ≤ j ∧ j < dstOff + count then src (srcOff + (j - dstOff)) else dst j

/-- Model of `ptr::write`: stores `v` at slot `i`. -/
def ptrWrite (mem : Nat → Option T) (i : Nat) (v : T) : Nat → Option T :=
  fun j => if j = i then some v else mem j

/-- `GapBuffer<T>`: `storage: Vec<T>` (raw slots + capacity) and
`gap: Range<usize>` (fields `gapStart`, `gapEnd`). -/
structure GapBuffer (T : Type u) where
  storage : Nat → Option T
  cap : Nat
  gapStart : Nat
  gapEnd : Nat

namespace GapBuffer

/-- `GapBuffer::new()`: empty storage (`Vec::new()` has capacity 0, all
memory uninitialized) and gap `0..0`. -/
def new : GapBuffer T :=
  { storage := fun _ => none, cap := 0, gapStart := 0, gapEnd := 0 }

/-- `GapBuffer::capacity()`. -/
def capacity (b : GapBuffer T) : Nat := b.cap

/-- `self.gap.len()` for the range `gapStart..gapEnd`. -/
def gapLen (b : GapBuffer T) : Nat := b.gapEnd - b.gapStart

/-- `GapBuffer::len()`: `capacity - gap.len()`. -/
def len (b : GapBuffer T) : Nat := b.capacity - b.gapLen

/-- `GapBuffer::position()`: `gap.start`. -/
def position (b : GapBuffer T) : Nat := b.gapStart

/-- `GapBuffer::index_to_raw`. -/
def index_to_raw (b : GapBuffer T) (index : Nat) : Nat :=
  if index < b.gapStart then index else index + b.gapLen

/-- `GapBuffer::get`: translate the logical index and read the slot when the
raw offset is below capacity.  Reading an uninitialized slot yields `none`
(in the Rust source this would be undefined behaviour; it cannot happen in a
well-formed buffer). -/
def get (b : GapBuffer T) (index : Nat) : Option T :=
  let raw := b.index_to_raw index
  if raw < b.capacity then b.storage raw else none

/-- `GapBuffer::set_potision` (sic): `none` models the panic on
`pos > self.len()`; otherwise the gap is relocated with the two
`ptr::copy` calls of the source and set to `pos..pos + gap.len()`. -/
def set_potision (b : GapBuffer T) (pos : Nat) : Option (GapBuffer T) :=
  if pos > b.len then
    none
  else
    some <|
      if pos > b.gapStart then
        let distance := pos - b.gapStart
        { b with
          storage := ptrCopy b.storage b.storage b.gapEnd b.gapStart distance
          gapStart := pos
          gapEnd := pos + b.gapLen }
      else if pos < b.gapStart then
        let distance := b.gapStart - pos
        { b with
          storage := ptrCopy b.storage b.storage pos (b.gapEnd - distance) distance
          gapStart := pos
          gapEnd := pos + b.gapLen }
      else
        { b with gapStart := pos, gapEnd := pos + b.gapLen }

/-- `GapBuffer::enlarge_gap`: double the capacity (floor 4 from 0), copy the
segment before the gap to the front of the fresh allocation and the segment
after the gap to its end, all new capacity joining the gap. -/
def enlarge_gap (b : GapBuffer T) : GapBuffer T :=
  let new_capcity := if b.capacity * 2 = 0 then 4 else b.capacity * 2
  let after_gap := b.capacity - b.gapEnd
  let new_gap_start := b.gapStart
  let new_gap_end := new_capcity - after_gap
  let s₁ := ptrCopy (fun _ => none) b.storage 0 0 b.gapStart
  let s₂ := ptrCopy s₁ b.storage b.gapEnd new_gap_end after_gap
  { storage := s₂, cap := new_capcity, gapStart := new_gap_start, gapEnd := new_gap_end }

/-- `GapBuffer::insert`: grow if the gap is empty, write at `gap.start`,
advance `gap.start`. -/
def insert (b : GapBuffer T) (elt : T) : GapBuffer T :=
  let b' := if b.gapLen = 0 then b.enlarge_gap else b
  { b' with
    storage := ptrWrite b'.storage b'.gapStart elt
    gapStart := b'.gapStart + 1 }

/-- `GapBuffer::insert_iter`: insert each element of the list in order. -/
def insert_iter (b : GapBuffer T) (l : List T) : GapBuffer T :=
  l.foldl insert b

/-- `GapBuffer::remove`: returns `(none, b)` when `gap.end == capacity`,
otherwise reads the slot at `gap.end` and grows the gap from the back. -/
def remove (b : GapBuffer T) : Option T × GapBuffer T :=
  if b.gapEnd = b.capacity then
    (none, b)
  else
    (b.storage b.gapEnd, { b with gapEnd := b.gapEnd + 1 })

/-- Invariant I2 of the spec: `gapStart ≤ gapEnd ≤ capacity`. -/
def I2 (b : GapBuffer T) : Prop :=
  b.gapStart ≤ b.gapEnd ∧ b.gapEnd ≤ b.capacity

/-- Invariant I1 of the spec, the part visible to the embedding: every slot
outside the gap and below capacity holds a live (written) value. -/
def Filled (b : GapBuffer T) : Prop :=
  ∀ j, j < b.capacity → (j < b.gapStart ∨ b.gapEnd ≤ j) → (b.storage j).isSome = true

/-- Well-formedness: I2 together with I1. -/
def Wf (b : GapBuffer T) : Prop := b.I2 ∧ b.Filled

instance (b : GapBuffer T) : Decidable b.I2 := by unfold I2; infer_instance

instance (b : GapBuffer T) : Decidable b.Filled := by unfold Filled; infer_instance

instance (b : GapBuffer T) : Decidable b.Wf := by unfold Wf; infer_instance

/-! ### Primitive memory lemmas -/

theorem ptrCopy_in (dst src : Nat → Option T) (srcOff dstOff count j : Nat)
    (h₁ : dstOff ≤ j) (h₂ : j < dstOff + count) :
    ptrCopy dst src srcOff dstOff count j = src (srcOff + (j - dstOff)) :=
  if_pos ⟨h₁, h₂⟩

theorem ptrCopy_out (dst src : Nat → Option T) (srcOff dstOff count j : Nat)
    (h : ¬(dstOff ≤ j ∧ j < dstOff + count)) :
    ptrCopy dst src srcOff dstOff count j = dst j :=
  if_neg h

theorem ptrWrite_self (mem : Nat → Option T) (i : Nat) (v : T) :
    ptrWrite mem i v i = some v :=
  if_pos rfl

theorem ptrWrite_other (mem : Nat → Option T) (i : Nat) (v : T) (j : Nat)
    (h : j ≠ i) : ptrWrite mem i v j = mem j :=
  if_neg h

/-! ### Unfolding lemmas for the derived quantities -/

theorem capacity_eq (b : GapBuffer T) : b.capacity = b.cap := rfl

theorem gapLen_eq (b : GapBuffer T) : b.gapLen = b.gapEnd - b.gapStart := rfl

theorem len_eq (b : GapBuffer T) : b.len = b.cap - (b.gapEnd - b.gapStart) := rfl

theorem position_eq (b : GapBuffer T) : b.position = b.gapStart := rfl

/-! ### Basic arithmetic facts about a well-formed buffer -/

theorem position_le_len {b : GapBuffer T} (h : b.I2) : b.position ≤ b.len := by
  obtain ⟨h₁, h₂⟩ := h
  replace h₂ : b.gapEnd ≤ b.cap := h₂
  rw [position_eq, len_eq]
  omega

theorem len_le_capacity {b : GapBuffer T} : b.len ≤ b.capacity :=
  Nat.sub_le _ _

theorem gapEnd_eq_capacity_iff {b : GapBuffer T} (h : b.I2) :
    b.gapEnd = b.capacity ↔ b.position = b.len := by
  obtain ⟨h₁, h₂⟩ := h
  replace h₂ : b.gapEnd ≤ b.cap := h₂
  rw [position_eq, len_eq, capacity_eq]
  omega

/-! ### `index_to_raw` and `get` -/

theorem index_to_raw_lt (b : GapBuffer T) (i : Nat) (h : i < b.gapStart) :
    b.index_to_raw i = i :=
  if_pos h

theorem index_to_raw_ge (b : GapBuffer T) (i : Nat) (h : ¬ i < b.gapStart) :
    b.index_to_raw i = i + b.gapLen :=
  if_neg h

theorem index_to_raw_not_in_gap {b : GapBuffer T} (h : b.gapStart ≤ b.gapEnd)
    (i : Nat) :
    ¬ (b.gapStart ≤ b.index_to_raw i ∧ b.index_to_raw i < b.gapEnd) := by
  unfold index_to_raw gapLen
  split <;> omega

theorem get_eq_storage_of_lt (b : GapBuffer T) (i : Nat) (h : i < b.gapStart)
    (hc : i < b.capacity) : b.get i = b.storage i := by
  unfold get
  rw [index_to_raw_lt b i h, if_pos hc]

theorem get_eq_storage_of_ge (b : GapBuffer T) (i : Nat) (h : ¬ i < b.gapStart)
    (hc : i + b.gapLen < b.capacity) :
    b.get i = b.storage (i + b.gapLen) := by
  unfold get
  rw [index_to_raw_ge b i h, if_pos hc]

theorem get_none_of_len_le {b : GapBuffer T} (h : b.I2) (i : Nat)
    (hi : b.len ≤ i) : b.get i = none := by
  obtain ⟨h₁, h₂⟩ := h
  replace h₂ : b.gapEnd ≤ b.cap := h₂
  rw [len_eq] at hi
  unfold get index_to_raw
  rw [gapLen_eq, capacity_eq]
  have hgs : ¬ i < b.gapStart := by omega
  rw [if_neg hgs, if_neg (by omega)]

theorem get_isSome_of_lt_len {b : GapBuffer T} (h : b.Wf) (i : Nat)
    (hi : i < b.len) : (b.get i).isSome = true := by
  obtain ⟨⟨h₁, h₂⟩, hfill⟩ := h
  replace h₂ : b.gapEnd ≤ b.cap := h₂
  replace hfill : ∀ j, j < b.cap → (j < b.gapStart ∨ b.gapEnd ≤ j) →
    (b.storage j).isSome = true := hfill
  rw [len_eq] at hi
  unfold get index_to_raw
  rw [gapLen_eq, capacity_eq]
  by_cases hgs : i < b.gapStart
  · rw [if_pos hgs, if_pos (by omega)]
    exact hfill i (by omega) (Or.inl hgs)
  · rw [if_neg hgs, if_pos (by omega)]
    exact hfill (i + (b.gapEnd - b.gapStart)) (by omega) (Or.inr (by omega))

/-! ### `remove` -/

theorem remove_fst_none_of_end (b : GapBuffer T) (h : b.gapEnd = b.capacity) :
    (b.remove).1 = none := by
  unfold remove
  rw [if_pos h]

theorem remove_snd_of_end (b : GapBuffer T) (h : b.gapEnd = b.capacity) :
    (b.remove).2 = b := by
  unfold remove
  rw [if_pos h]

theorem remove_of_not_end (b : GapBuffer T) (h : ¬ b.gapEnd = b.capacity) :
    b.remove = (b.storage b.gapEnd, { b with gapEnd := b.gapEnd + 1 }) := by
  unfold remove
  rw [if_neg h]

theorem remove_fst_eq_get {b : GapBuffer T} (h : b.I2)
    (hne : ¬ b.gapEnd = b.capacity) : (b.remove).1 = b.get b.position := by
  obtain ⟨h₁, h₂⟩ := h
  replace h₂ : b.gapEnd ≤ b.cap := h₂
  replace hne : ¬ b.gapEnd = b.cap := hne
  rw [remove_of_not_end b (by exact hne)]
  rw [position_eq]
  rw [get_eq_storage_of_ge b b.gapStart (by omega)
    (by rw [capacity_eq, gapLen_eq]; omega)]
  show b.storage b.gapEnd = b.storage (b.gapStart + b.gapLen)
  congr 1
  rw [gapLen_eq]
  omega

theorem remove_position (b : GapBuffer T) : (b.remove).2.position = b.position := by
  unfold remove
  split <;> rfl

theorem remove_capacity (b : GapBuffer T) : (b.remove).2.capacity = b.capacity := by
  unfold remove
  split <;> rfl

theorem remove_get_of_lt_position (b : GapBuffer T) (i : Nat)
    (hi : i < b.position) : (b.remove).2.get i = b.get i := by
  unfold remove
  split
  · rfl
  · unfold get index_to_raw capacity gapLen position at *
    simp only
    rw [if_pos hi, if_pos hi]

theorem remove_len {b : GapBuffer T} (h : b.I2)
    (hne : ¬ b.gapEnd = b.capacity) : (b.remove).2.len + 1 = b.len := by
  obtain ⟨h₁, h₂⟩ := h
  replace h₂ : b.gapEnd ≤ b.cap := h₂
  replace hne : ¬ b.gapEnd = b.cap := hne
  rw [remove_of_not_end b (by exact hne)]
  show b.cap - (b.gapEnd + 1 - b.gapStart) + 1 = b.cap - (b.gapEnd - b.gapStart)
  omega

theorem remove_I2 {b : GapBuffer T} (h : b.I2) : (b.remove).2.I2 := by
  obtain ⟨h₁, h₂⟩ := h
  replace h₂ : b.gapEnd ≤ b.cap := h₂
  by_cases hne : b.gapEnd = b.capacity
  · rw [remove_snd_of_end b hne]
    exact ⟨h₁, h₂⟩
  · replace hne : ¬ b.gapEnd = b.cap := hne
    rw [remove_of_not_end b (by exact hne)]
    refine ⟨?_, ?_⟩
    · show b.gapStart ≤ b.gapEnd + 1
      omega
    · show b.gapEnd + 1 ≤ b.cap
      omega

theorem remove_Wf {b : GapBuffer T} (h : b.Wf) : (b.remove).2.Wf := by
  obtain ⟨hI2, hfill⟩ := h
  refine ⟨remove_I2 hI2, ?_⟩
  obtain ⟨h₁, h₂⟩ := hI2
  replace h₂ : b.gapEnd ≤ b.cap := h₂
  replace hfill : ∀ j, j < b.cap → (j < b.gapStart ∨ b.gapEnd ≤ j) →
    (b.storage j).isSome = true := hfill
  by_cases hne : b.gapEnd = b.capacity
  · rw [remove_snd_of_end b hne]
    intro j hj hside
    exact hfill j hj hside
  · replace hne : ¬ b.gapEnd = b.cap := hne
    rw [remove_of_not_end b (by exact hne)]
    intro j hj hside
    replace hj : j < b.cap := hj
    replace hside : j < b.gapStart ∨ b.gapEnd + 1 ≤ j := hside
    exact hfill j hj (by omega)

/-! ### `enlarge_gap` -/

theorem enlarge_gap_fields (b : GapBuffer T) :
    b.enlarge_gap =
      { storage :=
          ptrCopy (ptrCopy (fun _ => none) b.storage 0 0 b.gapStart) b.storage
            b.gapEnd ((if b.cap * 2 = 0 then 4 else b.cap * 2) - (b.cap - b.gapEnd))
            (b.cap - b.gapEnd)
        cap := if b.cap * 2 = 0 then 4 else b.cap * 2
        gapStart := b.gapStart
        gapEnd := (if b.cap * 2 = 0 then 4 else b.cap * 2) - (b.cap - b.gapEnd) } :=
  rfl

theorem new_capcity_gt (b : GapBuffer T) :
    b.cap < if b.cap * 2 = 0 then 4 else b.cap * 2 := by
  split <;> omega

theorem enlarge_gap_gapStart (b : GapBuffer T) :
    b.enlarge_gap.gapStart = b.gapStart := rfl

theorem enlarge_gap_position (b : GapBuffer T) :
    b.enlarge_gap.position = b.position := rfl

theorem enlarge_gap_capacity (b : GapBuffer T) :
    b.enlarge_gap.capacity = if b.capacity = 0 then 4 else b.capacity * 2 := by
  rw [enlarge_gap_fields]
  show (if b.cap * 2 = 0 then 4 else b.cap * 2) = if b.cap = 0 then 4 else b.cap * 2
  by_cases hc : b.cap = 0
  · rw [if_pos hc, if_pos (by omega)]
  · rw [if_neg hc, if_neg (by omega)]

theorem enlarge_gap_I2 {b : GapBuffer T} (h : b.I2) : b.enlarge_gap.I2 := by
  obtain ⟨h₁, h₂⟩ := h
  replace h₂ : b.gapEnd ≤ b.cap := h₂
  have hN := new_capcity_gt b
  rw [enlarge_gap_fields]
  refine ⟨?_, ?_⟩
  · show b.gapStart ≤ (if b.cap * 2 = 0 then 4 else b.cap * 2) - (b.cap - b.gapEnd)
    omega
  · show (if b.cap * 2 = 0 then 4 else b.cap * 2) - (b.cap - b.gapEnd) ≤
      if b.cap * 2 = 0 then 4 else b.cap * 2
    omega

theorem enlarge_gap_len {b : GapBuffer T} (h : b.I2) :
    b.enlarge_gap.len = b.len := by
  obtain ⟨h₁, h₂⟩ := h
  replace h₂ : b.gapEnd ≤ b.cap := h₂
  have hN := new_capcity_gt b
  rw [len_eq, len_eq, enlarge_gap_fields]
  show (if b.cap * 2 = 0 then 4 else b.cap * 2) -
      ((if b.cap * 2 = 0 then 4 else b.cap * 2) - (b.cap - b.gapEnd) - b.gapStart) =
    b.cap - (b.gapEnd - b.gapStart)
  omega

theorem enlarge_gap_gapLen {b : GapBuffer T} (h : b.I2) :
    b.enlarge_gap.gapLen = b.gapLen + (b.enlarge_gap.capacity - b.capacity) := by
  obtain ⟨h₁, h₂⟩ := h
  replace h₂ : b.gapEnd ≤ b.cap := h₂
  have hN := new_capcity_gt b
  rw [gapLen_eq, gapLen_eq, capacity_eq, capacity_eq, enlarge_gap_fields]
  show (if b.cap * 2 = 0 then 4 else b.cap * 2) - (b.cap - b.gapEnd) - b.gapStart =
    b.gapEnd - b.gapStart + ((if b.cap * 2 = 0 then 4 else b.cap * 2) - b.cap)
  omega

theorem enlarge_gap_get {b : GapBuffer T} (h : b.I2) (i : Nat) :
    b.enlarge_gap.get i = b.get i := by
  obtain ⟨h₁, h₂⟩ := h
  replace h₂ : b.gapEnd ≤ b.cap := h₂
  have hN := new_capcity_gt b
  rw [enlarge_gap_fields]
  simp only [get, index_to_raw, gapLen, capacity, ptrCopy]
  split_ifs <;> first
  | rfl
  | omega
  | (congr 1; omega)

theorem enlarge_gap_Wf {b : GapBuffer T} (h : b.Wf) : b.enlarge_gap.Wf := by
  obtain ⟨hI2, hfill⟩ := h
  refine ⟨enlarge_gap_I2 hI2, ?_⟩
  obtain ⟨h₁, h₂⟩ := hI2
  replace h₂ : b.gapEnd ≤ b.cap := h₂
  replace hfill : ∀ j, j < b.cap → (j < b.gapStart ∨ b.gapEnd ≤ j) →
    (b.storage j).isSome = true := hfill
  have hN := new_capcity_gt b
  rw [enlarge_gap_fields]
  intro j hj hside
  replace hj : j < if b.cap * 2 = 0 then 4 else b.cap * 2 := hj
  replace hside : j < b.gapStart ∨
      (if b.cap * 2 = 0 then 4 else b.cap * 2) - (b.cap - b.gapEnd) ≤ j := hside
  show (ptrCopy (ptrCopy (fun _ => none) b.storage 0 0 b.gapStart) b.storage
      b.gapEnd ((if b.cap * 2 = 0 then 4 else b.cap * 2) - (b.cap - b.gapEnd))
      (b.cap - b.gapEnd) j).isSome = true
  rcases hside with hlt | hge
  · rw [ptrCopy_out _ _ _ _ _ _ (by omega), ptrCopy_in _ _ _ _ _ _ (by omega) (by omega)]
    exact hfill (0 + (j - 0)) (by omega) (Or.inl (by omega))
  · rw [ptrCopy_in _ _ _ _ _ _ (by omega) (by omega)]
    exact hfill _ (by omega) (Or.inr (by omega))

/-! ### `insert` -/

theorem insert_fields (b : GapBuffer T) (x : T) :
    b.insert x =
      { (if b.gapLen = 0 then b.enlarge_gap else b) with
        storage := ptrWrite (if b.gapLen = 0 then b.enlarge_gap else b).storage
          (if b.gapLen = 0 then b.enlarge_gap else b).gapStart x
        gapStart := (if b.gapLen = 0 then b.enlarge_gap else b).gapStart + 1 } :=
  rfl

theorem insert_core {b : GapBuffer T} (h : b.I2) :
    (if b.gapLen = 0 then b.enlarge_gap else b).I2 ∧
    (if b.gapLen = 0 then b.enlarge_gap else b).len = b.len ∧
    (if b.gapLen = 0 then b.enlarge_gap else b).gapStart = b.gapStart ∧
    1 ≤ (if b.gapLen = 0 then b.enlarge_gap else b).gapLen := by
  by_cases h0 : b.gapLen = 0
  · simp only [if_pos h0]
    refine ⟨enlarge_gap_I2 h, enlarge_gap_len h, enlarge_gap_gapStart b, ?_⟩
    rw [enlarge_gap_gapLen h, capacity_eq, capacity_eq, enlarge_gap_fields]
    show 1 ≤ b.gapLen + ((if b.cap * 2 = 0 then 4 else b.cap * 2) - b.cap)
    have hN := new_capcity_gt b
    omega
  · simp only [if_neg h0]
    exact ⟨h, trivial, trivial, by omega⟩

theorem insert_position (b : GapBuffer T) (x : T) :
    (b.insert x).position = b.position + 1 := by
  show (if b.gapLen = 0 then b.enlarge_gap else b).gapStart + 1 = b.gapStart + 1
  by_cases h0 : b.gapLen = 0
  · simp only [if_pos h0, enlarge_gap_gapStart]
  · simp only [if_neg h0]

theorem insert_len {b : GapBuffer T} (h : b.I2) (x : T) :
    (b.insert x).len = b.len + 1 := by
  have hcore := insert_core (T := T) h
  rw [insert_fields]
  set c := if b.gapLen = 0 then b.enlarge_gap else b with hc
  obtain ⟨⟨hc1, hc2⟩, hclen, hcgs, hcgl⟩ := hcore
  replace hc2 : c.gapEnd ≤ c.cap := hc2
  rw [gapLen_eq] at hcgl
  rw [len_eq, len_eq] at hclen
  show c.cap - (c.gapEnd - (c.gapStart + 1)) = b.len + 1
  rw [len_eq]
  omega

theorem insert_I2 {b : GapBuffer T} (h : b.I2) (x : T) : (b.insert x).I2 := by
  have hcore := insert_core (T := T) h
  rw [insert_fields]
  set c := if b.gapLen = 0 then b.enlarge_gap else b with hc
  obtain ⟨⟨hc1, hc2⟩, hclen, hcgs, hcgl⟩ := hcore
  replace hc2 : c.gapEnd ≤ c.cap := hc2
  rw [gapLen_eq] at hcgl
  refine ⟨?_, ?_⟩
  · show c.gapStart + 1 ≤ c.gapEnd
    omega
  · show c.gapEnd ≤ c.cap
    omega

theorem insert_Wf {b : GapBuffer T} (h : b.Wf) (x : T) : (b.insert x).Wf := by
  refine ⟨insert_I2 h.1 x, ?_⟩
  have hcore := insert_core (T := T) h.1
  have hcWf : (if b.gapLen = 0 then b.enlarge_gap else b).Wf := by
    by_cases h0 : b.gapLen = 0
    · simp only [if_pos h0]; exact enlarge_gap_Wf h
    · simp only [if_neg h0]; exact h
  rw [insert_fields]
  set c := if b.gapLen = 0 then b.enlarge_gap else b with hc
  obtain ⟨⟨hc1, hc2⟩, hclen, hcgs, hcgl⟩ := hcore
  obtain ⟨_, hcfill⟩ := hcWf
  replace hc2 : c.gapEnd ≤ c.cap := hc2
  replace hcfill : ∀ j, j < c.cap → (j < c.gapStart ∨ c.gapEnd ≤ j) →
    (c.storage j).isSome = true := hcfill
  rw [gapLen_eq] at hcgl
  intro j hj hside
  replace hj : j < c.cap := hj
  replace hside : j < c.gapStart + 1 ∨ c.gapEnd ≤ j := hside
  show (ptrWrite c.storage c.gapStart x j).isSome = true
  by_cases hj0 : j = c.gapStart
  · rw [hj0, ptrWrite_self]
    rfl
  · rw [ptrWrite_other _ _ _ _ hj0]
    exact hcfill j hj (by omega)

theorem insert_get_position {b : GapBuffer T} (h : b.I2) (x : T) :
    (b.insert x).get b.position = some x := by
  have hcore := insert_core (T := T) h
  rw [insert_fields]
  set c := if b.gapLen = 0 then b.enlarge_gap else b with hc
  obtain ⟨⟨hc1, hc2⟩, hclen, hcgs, hcgl⟩ := hcore
  replace hc2 : c.gapEnd ≤ c.cap := hc2
  rw [gapLen_eq] at hcgl
  rw [position_eq, ← hcgs]
  simp only [get, index_to_raw, gapLen, capacity, ptrWrite]
  split_ifs <;> first
  | rfl
  | omega

/-! ### `set_potision` -/

theorem set_potision_none_iff (b : GapBuffer T) (pos : Nat) :
    b.set_potision pos = none ↔ b.len < pos := by
  unfold set_potision
  by_cases hp : pos > b.len
  · rw [if_pos hp]
    exact iff_of_true rfl hp
  · rw [if_neg hp]
    exact iff_of_false (by simp) hp

theorem set_potision_isSome {b : GapBuffer T} {pos : Nat} (h : pos ≤ b.len) :
    (b.set_potision pos).isSome = true := by
  unfold set_potision
  rw [if_neg (by omega)]
  rfl

theorem set_potision_some_spec {b : GapBuffer T} {pos : Nat} {b' : GapBuffer T}
    (h : b.Wf) (hsp : b.set_potision pos = some b') :
    b'.gapStart = pos ∧ b'.gapEnd = pos + b.gapLen ∧ b'.cap = b.cap ∧
    b'.len = b.len ∧ b'.Wf ∧ ∀ i, b'.get i = b.get i := by
  obtain ⟨⟨h₁, h₂⟩, hfill⟩ := h
  replace h₂ : b.gapEnd ≤ b.cap := h₂
  replace hfill : ∀ j, j < b.cap → (j < b.gapStart ∨ b.gapEnd ≤ j) →
    (b.storage j).isSome = true := hfill
  unfold set_potision at hsp
  by_cases hp : b.len < pos
  · rw [if_pos hp] at hsp
    cases hsp
  · rw [if_neg hp] at hsp
    rw [len_eq] at hp
    by_cases hgt : b.gapStart < pos
    · rw [if_pos hgt] at hsp
      injection hsp with hsp
      subst hsp
      refine ⟨rfl, rfl, rfl, ?_, ⟨⟨?_, ?_⟩, ?_⟩, ?_⟩
      · rw [len_eq, len_eq]
        show b.cap - (pos + b.gapLen - pos) = b.cap - (b.gapEnd - b.gapStart)
        rw [gapLen_eq]
        omega
      · show pos ≤ pos + b.gapLen
        exact Nat.le_add_right _ _
      · show pos + b.gapLen ≤ b.cap
        rw [gapLen_eq]
        omega
      · intro j hj hside
        replace hj : j < b.cap := hj
        replace hside : j < pos ∨ pos + b.gapLen ≤ j := hside
        rw [gapLen_eq] at hside
        show (ptrCopy b.storage b.storage b.gapEnd b.gapStart (pos - b.gapStart)
          j).isSome = true
        by_cases hr : b.gapStart ≤ j ∧ j < b.gapStart + (pos - b.gapStart)
        · rw [ptrCopy_in _ _ _ _ _ _ hr.1 hr.2]
          exact hfill _ (by omega) (Or.inr (by omega))
        · rw [ptrCopy_out _ _ _ _ _ _ hr]
          exact hfill j hj (by omega)
      · intro i
        simp only [get, index_to_raw, gapLen, capacity, ptrCopy]
        split_ifs <;> first
        | rfl
        | omega
        | (congr 1; omega)
    · rw [if_neg hgt] at hsp
      by_cases hlt : pos < b.gapStart
      · rw [if_pos hlt] at hsp
        injection hsp with hsp
        subst hsp
        refine ⟨rfl, rfl, rfl, ?_, ⟨⟨?_, ?_⟩, ?_⟩, ?_⟩
        · rw [len_eq, len_eq]
          show b.cap - (pos + b.gapLen - pos) = b.cap - (b.gapEnd - b.gapStart)
          rw [gapLen_eq]
          omega
        · show pos ≤ pos + b.gapLen
          exact Nat.le_add_right _ _
        · show pos + b.gapLen ≤ b.cap
          rw [gapLen_eq]
          omega
        · intro j hj hside
          replace hj : j < b.cap := hj
          replace hside : j < pos ∨ pos + b.gapLen ≤ j := hside
          rw [gapLen_eq] at hside
          show (ptrCopy b.storage b.storage pos (b.gapEnd - (b.gapStart - pos))
            (b.gapStart - pos) j).isSome = true
          by_cases hr : b.gapEnd - (b.gapStart - pos) ≤ j ∧
              j < b.gapEnd - (b.gapStart - pos) + (b.gapStart - pos)
          · rw [ptrCopy_in _ _ _ _ _ _ hr.1 hr.2]
            exact hfill _ (by omega) (Or.inl (by omega))
          · rw [ptrCopy_out _ _ _ _ _ _ hr]
            exact hfill j hj (by omega)
        · intro i
          simp only [get, index_to_raw, gapLen, capacity, ptrCopy]
          split_ifs <;> first
          | rfl
          | omega
          | (congr 1; omega)
      · rw [if_neg hlt] at hsp
        injection hsp with hsp
        subst hsp
        have hpe : pos = b.gapStart := by omega
        refine ⟨rfl, rfl, rfl, ?_, ⟨⟨?_, ?_⟩, ?_⟩, ?_⟩
        · rw [len_eq, len_eq]
          show b.cap - (pos + b.gapLen - pos) = b.cap - (b.gapEnd - b.gapStart)
          rw [gapLen_eq]
          omega
        · show pos ≤ pos + b.gapLen
          exact Nat.le_add_right _ _
        · show pos + b.gapLen ≤ b.cap
          rw [gapLen_eq]
          omega
        · intro j hj hside
          replace hj : j < b.cap := hj
          replace hside : j < pos ∨ pos + b.gapLen ≤ j := hside
          rw [gapLen_eq] at hside
          show (b.storage j).isSome = true
          exact hfill j hj (by omega)
        · intro i
          simp only [get, index_to_raw, gapLen, capacity]
          split_ifs <;> first
          | rfl
          | omega
          | (congr 1; omega)

/-! ### Buffers built by a sequence of inserts from `new` -/

/-- After inserting the elements of `l` in order into a fresh buffer (with no
relocation or removal in between), the gap extends to the end of storage, the
cursor sits at `l.length`, and the prefix of storage spells out `l`. -/
def Reps (b : GapBuffer T) (l : List T) : Prop :=
  b.gapEnd = b.cap ∧ b.gapStart = l.length ∧ l.length ≤ b.cap ∧
  ∀ j, j < l.length → b.storage j = l[j]?

theorem reps_new : (new : GapBuffer T).Reps [] :=
  ⟨rfl, rfl, Nat.le_refl 0, fun j hj => absurd hj (by simp)⟩

theorem reps_insert {b : GapBuffer T} {l : List T} (h : b.Reps l) (x : T) :
    (b.insert x).Reps (l ++ [x]) := by
  obtain ⟨he, hs, hle, hst⟩ := h
  have hcfacts :
      (if b.gapLen = 0 then b.enlarge_gap else b).gapEnd =
        (if b.gapLen = 0 then b.enlarge_gap else b).cap ∧
      (if b.gapLen = 0 then b.enlarge_gap else b).gapStart = l.length ∧
      l.length + 1 ≤ (if b.gapLen = 0 then b.enlarge_gap else b).cap ∧
      ∀ j, j < l.length →
        (if b.gapLen = 0 then b.enlarge_gap else b).storage j = l[j]? := by
    by_cases h0 : b.gapLen = 0
    · simp only [if_pos h0]
      rw [gapLen_eq] at h0
      have hN := new_capcity_gt b
      rw [enlarge_gap_fields]
      refine ⟨?_, ?_, ?_, ?_⟩
      · show (if b.cap * 2 = 0 then 4 else b.cap * 2) - (b.cap - b.gapEnd) =
          if b.cap * 2 = 0 then 4 else b.cap * 2
        omega
      · exact hs
      · show l.length + 1 ≤ if b.cap * 2 = 0 then 4 else b.cap * 2
        omega
      · intro j hj
        show ptrCopy (ptrCopy (fun _ => none) b.storage 0 0 b.gapStart) b.storage
            b.gapEnd ((if b.cap * 2 = 0 then 4 else b.cap * 2) - (b.cap - b.gapEnd))
            (b.cap - b.gapEnd) j = l[j]?
        rw [ptrCopy_out _ _ _ _ _ _ (by omega),
          ptrCopy_in _ _ _ _ _ _ (by omega) (by omega)]
        simp only [Nat.zero_add, Nat.sub_zero]
        exact hst j hj
    · simp only [if_neg h0]
      rw [gapLen_eq] at h0
      exact ⟨he, hs, by omega, hst⟩
  rw [insert_fields]
  set c := if b.gapLen = 0 then b.enlarge_gap else b with hc
  obtain ⟨hce, hcs, hcle, hcst⟩ := hcfacts
  refine ⟨?_, ?_, ?_, ?_⟩
  · show c.gapEnd = c.cap
    exact hce
  · show c.gapStart + 1 = (l ++ [x]).length
    rw [List.length_append, hcs]
    rfl
  · show (l ++ [x]).length ≤ c.cap
    rw [List.length_append]
    show l.length + 1 ≤ c.cap
    exact hcle
  · intro j hj
    replace hj : j < l.length + 1 := by
      rw [List.length_append] at hj
      exact hj
    by_cases hjl : j = l.length
    · subst hjl
      show (if l.length = c.gapStart then some x else c.storage l.length) =
        (l ++ [x])[l.length]?
      rw [if_pos hcs.symm, List.getElem?_concat_length]
    · show (if j = c.gapStart then some x else c.storage j) = (l ++ [x])[j]?
      rw [if_neg (by omega), List.getElem?_append_left (by omega)]
      exact hcst j (by omega)

theorem reps_insert_iter {b : GapBuffer T} {l : List T} (h : b.Reps l)
    (l' : List T) : (b.insert_iter l').Reps (l ++ l') := by
  induction l' generalizing b l with
  | nil =>
      rw [List.append_nil]
      exact h
  | cons x xs ih =>
      have h' := reps_insert h x
      have h'' := ih h'
      rw [List.append_assoc] at h''
      exact h''

theorem insert_iter_new_len (l : List T) :
    ((new : GapBuffer T).insert_iter l).len = l.length := by
  obtain ⟨he, hs, hle, hst⟩ := reps_insert_iter (reps_new (T := T)) l
  rw [List.nil_append] at hs hle
  rw [len_eq]
  omega

theorem insert_iter_new_get (l : List T) (i : Nat) (hi : i < l.length) :
    ((new : GapBuffer T).insert_iter l).get i = l[i]? := by
  obtain ⟨he, hs, hle, hst⟩ := reps_insert_iter (reps_new (T := T)) l
  rw [List.nil_append] at hs hle hst
  rw [get_eq_storage_of_lt _ i (by omega) (by rw [capacity_eq]; omega)]
  exact hst i hi

/-! ### A further helper: `set_potision` preserves I2 alone -/

theorem set_potision_I2 {b : GapBuffer T} {pos : Nat} {b' : GapBuffer T}
    (h : b.I2) (hsp : b.set_potision pos = some b') : b'.I2 := by
  obtain ⟨h₁, h₂⟩ := h
  replace h₂ : b.gapEnd ≤ b.cap := h₂
  unfold set_potision at hsp
  by_cases hp : b.len < pos
  · rw [if_pos hp] at hsp
    cases hsp
  · rw [if_neg hp] at hsp
    rw [len_eq] at hp
    by_cases hgt : b.gapStart < pos
    · rw [if_pos hgt] at hsp
      injection hsp with hsp
      subst hsp
      refine ⟨?_, ?_⟩
      · show pos ≤ pos + b.gapLen
        exact Nat.le_add_right _ _
      · show pos + b.gapLen ≤ b.cap
        rw [gapLen_eq]
        omega
    · rw [if_neg hgt] at hsp
      by_cases hlt : pos < b.gapStart
      · rw [if_pos hlt] at hsp
        injection hsp with hsp
        subst hsp
        refine ⟨?_, ?_⟩
        · show pos ≤ pos + b.gapLen
          exact Nat.le_add_right _ _
        · show pos + b.gapLen ≤ b.cap
          rw [gapLen_eq]
          omega
      · rw [if_neg hlt] at hsp
        injection hsp with hsp
        subst hsp
        refine ⟨?_, ?_⟩
        · show pos ≤ pos + b.gapLen
          exact Nat.le_add_right _ _
        · show pos + b.gapLen ≤ b.cap
          rw [gapLen_eq]
          omega

/-! ### Concrete buffer used by the witnesses

`bufEx` holds the logical sequence `0, 1, 14, 15` with the cursor at 2:
storage is `[0, 1, ⟨gap⟩, ⟨gap⟩, 14, 15]` with capacity 6 and gap `2..4`. -/

def bufEx : GapBuffer Nat :=
  { storage := fun j =>
      if j < 2 then some j else if 4 ≤ j ∧ j < 6 then some (10 + j) else none
    cap := 6
    gapStart := 2
    gapEnd := 4 }

/-! ### Claim theorems -/

/-- C1, counterexample: on the empty buffer, `insert 42` followed by `remove`
does not return `some 42` (it returns `none`), and neither `len` nor
`position` is restored to its pre-insert value. -/
theorem insert_remove_not_inverse :
    ¬ ((((new : GapBuffer Nat).insert 42).remove.1 = some 42) ∧
       ((new : GapBuffer Nat).insert 42).remove.2.len = (new : GapBuffer Nat).len ∧
       ((new : GapBuffer Nat).insert 42).remove.2.position =
         (new : GapBuffer Nat).position) := by
  decide

/-- C1, amended: `remove` deletes the element after the cursor while `insert`
leaves the cursor after the new element, so the inverse of `insert x` is
`set_potision` back to the pre-insert position followed by `remove`: that
sequence returns `some x` and restores `len` and `position`. -/
theorem insert_set_potision_remove_inverse (b : GapBuffer T) (x : T)
    (h : b.Wf) :
    ∃ b', (b.insert x).set_potision b.position = some b' ∧
      b'.remove.1 = some x ∧ b'.remove.2.len = b.len ∧
      b'.remove.2.position = b.position := by
  have hWf1 := insert_Wf h x
  have hpos_le : b.position ≤ (b.insert x).len := by
    rw [insert_len h.1 x]
    have := position_le_len h.1
    omega
  obtain ⟨b', hb'⟩ := Option.isSome_iff_exists.mp (set_potision_isSome hpos_le)
  obtain ⟨hgs, hge, hcap, hlen, hWf', hget⟩ := set_potision_some_spec hWf1 hb'
  have hlen' : b'.len = b.len + 1 := by rw [hlen, insert_len h.1 x]
  have hposb' : b'.position = b.position := by rw [position_eq, hgs]
  have hne : ¬ b'.gapEnd = b'.capacity := by
    intro hcontra
    rw [gapEnd_eq_capacity_iff hWf'.1] at hcontra
    rw [hposb'] at hcontra
    have := position_le_len h.1
    omega
  refine ⟨b', hb', ?_, ?_, ?_⟩
  · rw [remove_fst_eq_get hWf'.1 hne, hposb', hget b.position]
    exact insert_get_position h.1 x
  · have hr := remove_len hWf'.1 hne
    omega
  · rw [remove_position, hposb']

/-- Witness for the amended C1 at a concrete buffer. -/
theorem insert_set_potision_remove_inverse_witness :
    bufEx.Wf ∧
    (∃ b', (bufEx.insert 99).set_potision bufEx.position = some b' ∧
      b'.remove.1 = some 99 ∧ b'.remove.2.len = bufEx.len ∧
      b'.remove.2.position = bufEx.position) :=
  ⟨by decide, insert_set_potision_remove_inverse bufEx 99 (by decide)⟩

/-- C2: for `pos ≤ len`, `set_potision pos` succeeds, the cursor lands on
`pos`, the gap keeps its size, and every logical read is unchanged (content is
invariant under relocation, overlap and zero-element moves included). -/
theorem set_potision_content_invariant (b : GapBuffer T) (pos : Nat)
    (h : b.Wf) (hp : pos ≤ b.len) :
    ∃ b', b.set_potision pos = some b' ∧ b'.position = pos ∧
      b'.gapEnd - b'.gapStart = b.gapEnd - b.gapStart ∧
      ∀ i, b'.get i = b.get i := by
  obtain ⟨b', hb'⟩ := Option.isSome_iff_exists.mp (set_potision_isSome hp)
  obtain ⟨hgs, hge, hcap, hlen, hWf', hget⟩ := set_potision_some_spec h hb'
  refine ⟨b', hb', by rw [position_eq, hgs], ?_, hget⟩
  rw [hgs, hge, gapLen_eq]
  omega

/-- Witness for C2 at a concrete buffer, relocating from position 2 to 1. -/
theorem set_potision_content_invariant_witness :
    bufEx.Wf ∧ 1 ≤ bufEx.len ∧
    (∃ b', bufEx.set_potision 1 = some b' ∧ b'.position = 1 ∧
      b'.gapEnd - b'.gapStart = bufEx.gapEnd - bufEx.gapStart ∧
      ∀ i, b'.get i = bufEx.get i) :=
  ⟨by decide, by decide, set_potision_content_invariant bufEx 1 (by decide) (by decide)⟩

/-- C3: inserting a sequence into a fresh buffer yields `len` equal to the
number of inserts and `get i` equal to the `i`-th inserted value (growth is
transparent), and on any buffer satisfying I2 a single `insert` increases
`len` by exactly one. -/
theorem insert_sequence_spec :
    (∀ l : List T, ((new : GapBuffer T).insert_iter l).len = l.length ∧
      ∀ i, i < l.length → ((new : GapBuffer T).insert_iter l).get i = l[i]?) ∧
    (∀ (b : GapBuffer T) (x : T), b.I2 → (b.insert x).len = b.len + 1) :=
  ⟨fun l => ⟨insert_iter_new_len l, fun i hi => insert_iter_new_get l i hi⟩,
   fun _ x h => insert_len h x⟩

/-- Witness for C3: a three-element sequence crosses the initial growth from
capacity 0 to 4, and a single insert on `bufEx`. -/
theorem insert_sequence_spec_witness :
    ((new : GapBuffer Nat).insert_iter [5, 7, 9]).len = 3 ∧
    (1 < ([5, 7, 9] : List Nat).length ∧
      ((new : GapBuffer Nat).insert_iter [5, 7, 9]).get 1 = ([5, 7, 9] : List Nat)[1]?) ∧
    (bufEx.I2 ∧ (bufEx.insert 3).len = bufEx.len + 1) := by
  refine ⟨?_, ⟨by decide, ?_⟩, ⟨by decide, ?_⟩⟩
  · exact (insert_sequence_spec.1 [5, 7, 9]).1
  · exact (insert_sequence_spec.1 [5, 7, 9]).2 1 (by decide)
  · exact insert_sequence_spec.2 bufEx 3 (by decide)

/-- C4: `set_potision pos` hits the fatal out-of-range branch exactly when
`pos > len`; for every `pos ≤ len` it succeeds. -/
theorem set_potision_fatal_iff (b : GapBuffer T) (pos : Nat) :
    b.set_potision pos = none ↔ b.len < pos :=
  set_potision_none_iff b pos

/-- C5: `remove` returns `none` exactly when `gapEnd = capacity`
(equivalently `position = len`), leaving the buffer unchanged; otherwise it
returns the live element right after the gap — the pre-call `get position` —
and bumps `gapEnd` by one. -/
theorem remove_spec_claim (b : GapBuffer T) (h : b.Wf) :
    (b.remove.1 = none ↔ b.gapEnd = b.capacity) ∧
    (b.gapEnd = b.capacity ↔ b.position = b.len) ∧
    (b.gapEnd = b.capacity → b.remove.2 = b) ∧
    (¬ b.gapEnd = b.capacity →
      b.remove.1 = b.get b.position ∧ (b.get b.position).isSome = true ∧
      b.remove.2.gapEnd = b.gapEnd + 1) := by
  have hiff := gapEnd_eq_capacity_iff h.1
  have hlt_of_ne : ¬ b.gapEnd = b.capacity → b.position < b.len := by
    intro hne
    have hle := position_le_len h.1
    rcases Nat.lt_or_ge b.position b.len with hlt | hge2
    · exact hlt
    · exact absurd (hiff.mpr (by omega)) hne
  refine ⟨?_, hiff, fun he => remove_snd_of_end b he, fun hne => ?_⟩
  · constructor
    · intro hnone
      by_contra hne
      have h1 := remove_fst_eq_get h.1 hne
      have h2 := get_isSome_of_lt_len h b.position (hlt_of_ne hne)
      rw [h1] at hnone
      rw [hnone] at h2
      simp at h2
    · intro he
      exact remove_fst_none_of_end b he
  · refine ⟨remove_fst_eq_get h.1 hne, get_isSome_of_lt_len h b.position (hlt_of_ne hne), ?_⟩
    rw [remove_of_not_end b hne]

/-- Witness for C5 at a concrete buffer whose cursor is not at the end. -/
theorem remove_spec_claim_witness :
    bufEx.Wf ∧
    ((bufEx.remove.1 = none ↔ bufEx.gapEnd = bufEx.capacity) ∧
     (bufEx.gapEnd = bufEx.capacity ↔ bufEx.position = bufEx.len) ∧
     (bufEx.gapEnd = bufEx.capacity → bufEx.remove.2 = bufEx) ∧
     (¬ bufEx.gapEnd = bufEx.capacity →
       bufEx.remove.1 = bufEx.get bufEx.position ∧
       (bufEx.get bufEx.position).isSome = true ∧
       bufEx.remove.2.gapEnd = bufEx.gapEnd + 1)) :=
  ⟨by decide, remove_spec_claim bufEx (by decide)⟩

/-- C6: under the invariants, `get i` is `none` for every `i ≥ len` and holds
a value for every `i < len` (`get` is a pure function of the state in this
embedding, so it mutates nothing). -/
theorem get_bounds (b : GapBuffer T) (h : b.Wf) :
    (∀ i, b.len ≤ i → b.get i = none) ∧
    (∀ i, i < b.len → (b.get i).isSome = true) :=
  ⟨fun i hi => get_none_of_len_le h.1 i hi,
   fun i hi => get_isSome_of_lt_len h i hi⟩

/-- Witness for C6 at a concrete buffer. -/
theorem get_bounds_witness :
    bufEx.Wf ∧
    ((∀ i, bufEx.len ≤ i → bufEx.get i = none) ∧
     (∀ i, i < bufEx.len → (bufEx.get i).isSome = true)) :=
  ⟨by decide, get_bounds bufEx (by decide)⟩

/-- C7: `enlarge_gap` doubles capacity (floor 4 from 0), keeps `gapStart`,
`position`, `len` and every `get` unchanged, and the single gap absorbs all
the added capacity: the new gap length is the old one plus the capacity
increase. -/
theorem enlarge_gap_spec (b : GapBuffer T) (h : b.Wf) :
    b.enlarge_gap.capacity = (if b.capacity = 0 then 4 else b.capacity * 2) ∧
    b.enlarge_gap.gapStart = b.gapStart ∧
    b.enlarge_gap.position = b.position ∧
    b.enlarge_gap.len = b.len ∧
    (∀ i, b.enlarge_gap.get i = b.get i) ∧
    b.enlarge_gap.gapLen = b.gapLen + (b.enlarge_gap.capacity - b.capacity) :=
  ⟨enlarge_gap_capacity b, enlarge_gap_gapStart b, enlarge_gap_position b,
   enlarge_gap_len h.1, fun i => enlarge_gap_get h.1 i, enlarge_gap_gapLen h.1⟩

/-- Witness for C7 at a concrete buffer. -/
theorem enlarge_gap_spec_witness :
    bufEx.Wf ∧
    (bufEx.enlarge_gap.capacity = (if bufEx.capacity = 0 then 4 else bufEx.capacity * 2) ∧
     bufEx.enlarge_gap.gapStart = bufEx.gapStart ∧
     bufEx.enlarge_gap.position = bufEx.position ∧
     bufEx.enlarge_gap.len = bufEx.len ∧
     (∀ i, bufEx.enlarge_gap.get i = bufEx.get i) ∧
     bufEx.enlarge_gap.gapLen = bufEx.gapLen + (bufEx.enlarge_gap.capacity - bufEx.capacity)) :=
  ⟨by decide, enlarge_gap_spec bufEx (by decide)⟩

/-- C8: the invariant `gapStart ≤ gapEnd ≤ capacity` holds for `new()` and is
preserved by `insert`, by `remove`, and by every successful `set_potision`
(`get` takes the state apart without producing one, so it preserves the
invariant trivially). -/
theorem invariant_preservation :
    (new : GapBuffer T).I2 ∧
    (∀ (b : GapBuffer T) (x : T), b.I2 → (b.insert x).I2) ∧
    (∀ b : GapBuffer T, b.I2 → b.remove.2.I2) ∧
    (∀ (b : GapBuffer T) (pos : Nat) (b' : GapBuffer T),
      b.I2 → b.set_potision pos = some b' → b'.I2) :=
  ⟨⟨Nat.le_refl 0, Nat.le_refl 0⟩, fun _ x h => insert_I2 h x,
   fun _ h => remove_I2 h, fun _ _ _ h hsp => set_potision_I2 h hsp⟩

/-- Witness for C8 at a concrete buffer. -/
theorem invariant_preservation_witness :
    bufEx.I2 ∧ (bufEx.insert 7).I2 ∧ bufEx.remove.2.I2 :=
  ⟨by decide, invariant_preservation.2.1 bufEx 7 (by decide),
   invariant_preservation.2.2.1 bufEx (by decide)⟩

/-- C9: `index_to_raw i` is `i` below `gapStart` and `i + (gapEnd - gapStart)`
from `gapStart` on; it is total, and whenever `gapStart ≤ gapEnd` its result
never falls inside the gap `[gapStart, gapEnd)`. -/
theorem index_to_raw_spec (b : GapBuffer T) (i : Nat) :
    b.index_to_raw i =
      (if i < b.gapStart then i else i + (b.gapEnd - b.gapStart)) ∧
    (b.gapStart ≤ b.gapEnd →
      ¬ (b.gapStart ≤ b.index_to_raw i ∧ b.index_to_raw i < b.gapEnd)) :=
  ⟨by unfold index_to_raw; rw [gapLen_eq],
   fun h => index_to_raw_not_in_gap h i⟩

/-- Witness for C9 at a concrete buffer and index. -/
theorem index_to_raw_spec_witness :
    bufEx.gapStart ≤ bufEx.gapEnd ∧
    ¬ (bufEx.gapStart ≤ bufEx.index_to_raw 3 ∧
       bufEx.index_to_raw 3 < bufEx.gapEnd) :=
  ⟨by decide, (index_to_raw_spec bufEx 3).2 (by decide)⟩

/-- C10: `remove` never changes `position` or `capacity` (whether it returns
a value or not), and every logical index below the cursor reads the same
value afterwards. -/
theorem remove_frame (b : GapBuffer T) :
    b.remove.2.position = b.position ∧
    b.remove.2.capacity = b.capacity ∧
    ∀ i, i < b.position → b.remove.2.get i = b.get i :=
  ⟨remove_position b, remove_capacity b,
   fun i hi => remove_get_of_lt_position b i hi⟩

/-- Witness for C10 at a concrete buffer and index below the cursor. -/
theorem remove_frame_witness :
    1 < bufEx.position ∧ bufEx.remove.2.get 1 = bufEx.get 1 :=
  ⟨by decide, (remove_frame bufEx).2.2 1 (by decide)⟩

end GapBuffer
